import Mathlib

set_option autoImplicit false

/-! ### Definitions -/

/-- A JSON value, standing for the TypeScript `unknown` / JSON payloads used
by the source (`Record<string, unknown>` attrs, `JSON.stringify`, temp-file
payloads). Objects keep insertion order, as JavaScript objects do. -/

inductive Json where
  | null
  | bool (b : Bool)
  | num (n : Int)
  | str (s : String)
  | arr (elems : List Json)
  | obj (fields : List (String × Json))
deriving Repr

/-- Embeds the source interface `AdfMark` (src/unnamed/part_021):
`{ type: string; attrs?: Record<string, unknown> }`. -/

structure AdfMark where
  type : String
  attrs : Option (List (String × Json))
deriving Repr

/-- Embeds the source interface `AdfNode` (src/unnamed/part_021):
`{ type: string; attrs?; content?: AdfNode[]; marks?: AdfMark[]; text?: string }`. -/

inductive AdfNode where
  | mk (type : String)
       (attrs : Option (List (String × Json)))
       (content : Option (List AdfNode))
       (marks : Option (List AdfMark))
       (text : Option String)
deriving Repr

def AdfNode.type : AdfNode → String
  | .mk t _ _ _ _ => t

def AdfNode.attrs : AdfNode → Option (List (String × Json))
  | .mk _ a _ _ _ => a

def AdfNode.content : AdfNode → Option (List AdfNode)
  | .mk _ _ c _ _ => c

def AdfNode.marks : AdfNode → Option (List AdfMark)
  | .mk _ _ _ m _ => m

def AdfNode.text : AdfNode → Option String
  | .mk _ _ _ _ s => s

/-- Embeds the source interface `AdfDocument` (src/unnamed/part_021):
`{ version: 1; type: "doc"; content: AdfNode[] }`. -/

structure AdfDocument where
  version : Nat
  type : String
  content : List AdfNode
deriving Repr

/-- Split a character list on every occurrence of `c`; always returns at
least one (possibly empty) segment, like `String.split`. -/

def splitOnChar (c : Char) : List Char → List (List Char)
  | [] => [[]]
  | x :: xs =>
    if x == c then [] :: splitOnChar c xs
    else
      match splitOnChar c xs with
      | [] => [[x]]
      | h :: t => (x :: h) :: t

/-- Does the list start with the delimiter sequence `d`? -/

def startsWithSeq : List Char → List Char → Bool
  | [], _ => true
  | _ :: _, [] => false
  | c :: cs, y :: ys => c == y && startsWithSeq cs ys

/-- Split `l` at the first occurrence of the (contiguous) delimiter `d`,
returning the part before it and the part after it. -/

def splitAtSub (d : List Char) : List Char → Option (List Char × List Char)
  | [] => none
  | x :: xs =>
    if startsWithSeq d (x :: xs) then some ([], (x :: xs).drop d.length)
    else
      match splitAtSub d xs with
      | some (p, s) => some (x :: p, s)
      | none => none

/-- Strip leading and trailing spaces of a character list. -/

def trimSpaces (l : List Char) : List Char :=
  ((l.dropWhile (· == ' ')).reverse.dropWhile (· == ' ')).reverse

/-- Modelled from the spec: the inline formatting marks of §3 of the spec
(`bold, italic, strikethrough, inlineCode, link(href)`), produced by the
external `@atlaskit/editor-markdown-transformer` that the repository source
only calls. The ADF mark-name mapping (`strong`, `em`, `strike`, `code`,
`link`) follows the schema mark list in src/unnamed/part_021. -/

inductive InlineMark where
  | strong
  | em
  | strike
  | code
  | link (href : List Char)
deriving Repr

/-- A parsed inline run: a text span together with the set of marks
attached to it (spec §3, Inline node). -/

structure Inline where
  text : List Char
  marks : List InlineMark
deriving Repr

/-- Prepend a plain character to an inline list, merging it into a leading
unmarked text run when there is one. -/

def consPlain (c : Char) : List Inline → List Inline
  | ⟨s, []⟩ :: t => ⟨c :: s, []⟩ :: t
  | l => ⟨[c], []⟩ :: l

/-- The backtick character (inline-code delimiter). -/

def backQuote : Char := Char.ofNat 96

/-- Modelled from the spec: inline parsing of the CommonMark-family marks
listed in §6 of the spec (`**bold**`, `*italic*`, `~~strike~~`, inline
code, links `[text](url)`); the actual implementation lives in the external
`@atlaskit/editor-markdown-transformer` package, absent from the repository.
Unclosed delimiters are treated as literal text (spec §4); a link is only
recognised with non-empty text and target (spec §3 invariant: a link mark
always carries a non-empty href). Fuel-based structural recursion: each
step consumes at least one character, so `fuel = input length` suffices. -/

def parseInlinesGo : Nat → List Char → List Inline
  | 0, _ => []
  | _ + 1, [] => []
  | fuel + 1, '*' :: '*' :: rest =>
    match splitAtSub ['*', '*'] rest with
    | some (inner, rest2) =>
      if inner.isEmpty then consPlain '*' (consPlain '*' (parseInlinesGo fuel rest))
      else ⟨inner, [.strong]⟩ :: parseInlinesGo fuel rest2
    | none => consPlain '*' (consPlain '*' (parseInlinesGo fuel rest))
  | fuel + 1, '~' :: '~' :: rest =>
    match splitAtSub ['~', '~'] rest with
    | some (inner, rest2) =>
      if inner.isEmpty then consPlain '~' (consPlain '~' (parseInlinesGo fuel rest))
      else ⟨inner, [.strike]⟩ :: parseInlinesGo fuel rest2
    | none => consPlain '~' (consPlain '~' (parseInlinesGo fuel rest))
  | fuel + 1, '[' :: rest =>
    match splitAtSub [']'] rest with
    | some (txt, '(' :: r3) =>
      match splitAtSub [')'] r3 with
      | some (href, r4) =>
        if txt.isEmpty || href.isEmpty then consPlain '[' (parseInlinesGo fuel rest)
        else ⟨txt, [.link href]⟩ :: parseInlinesGo fuel r4
      | none => consPlain '[' (parseInlinesGo fuel rest)
    | _ => consPlain '[' (parseInlinesGo fuel rest)
  | fuel + 1, '*' :: rest =>
    match splitAtSub ['*'] rest with
    | some (inner, rest2) =>
      if inner.isEmpty then consPlain '*' (parseInlinesGo fuel rest)
      else ⟨inner, [.em]⟩ :: parseInlinesGo fuel rest2
    | none => consPlain '*' (parseInlinesGo fuel rest)
  | fuel + 1, c :: rest =>
    if c == backQuote then
      match splitAtSub [backQuote] rest with
      | some (inner, rest2) =>
        if inner.isEmpty then consPlain c (parseInlinesGo fuel rest)
        else ⟨inner, [.code]⟩ :: parseInlinesGo fuel rest2
      | none => consPlain c (parseInlinesGo fuel rest)
    else consPlain c (parseInlinesGo fuel rest)

/-- Modelled from the spec: parse the inline content of one line (spec §4 step 3). -/

def parseInlines (l : List Char) : List Inline :=
  parseInlinesGo l.length l

/-- Modelled from the spec: the block-level parse tree of §3/§4 of the spec
for the constructs the claims exercise (paragraphs, headings, pipe tables);
the actual parse tree is built by the external markdown transformer, absent
from the repository. A table holds the cells of its header row and of its data
rows. -/

inductive MdBlock where
  | paragraph (content : List Inline)
  | heading (level : Nat) (content : List Inline)
  | table (header : List (List Inline)) (rows : List (List (List Inline)))
deriving Repr

/-- A line consisting only of spaces (blank separator line). -/

def isBlankLine (l : List Char) : Bool := l.all (· == ' ')

/-- Count the leading occurrences of `c`. -/

def countLeading (c : Char) : List Char → Nat
  | [] => 0
  | x :: xs => if x == c then countLeading c xs + 1 else 0

/-- Modelled from the spec: ATX heading recognition (spec §6: headings are
`#`…`######` followed by a space); yields the level (1–6, spec §3
invariant) and the inline text of the heading. -/

def isHeadingLine (l : List Char) : Option (Nat × List Char) :=
  if 1 ≤ countLeading '#' l ∧ countLeading '#' l ≤ 6 then
    match l.drop (countLeading '#' l) with
    | ' ' :: r => some (countLeading '#' l, r.dropWhile (· == ' '))
    | _ => none
  else none

/-- A pipe-table row line: starts with a pipe (spec §6 table syntax). -/

def isRowLine (l : List Char) : Bool :=
  match l with
  | '|' :: _ => true
  | _ => false

/-- Modelled from the spec: the `| --- | --- |` separator row that makes the
preceding line a table header row (spec §6). -/

def isDelimLine (l : List Char) : Bool :=
  isRowLine l
    && l.all (fun c => c == '|' || c == '-' || c == ' ' || c == ':')
    && l.any (· == '-')

/-- Modelled from the spec: split a pipe-table row line into its cells
(spec §4 step 5); the leading and trailing empty segments produced by the
outer pipes are dropped, the remaining segments become cells with their
inline content parsed and surrounding spaces trimmed. Ragged rows keep
whatever cell count is present (spec §7 open question). -/

def parseRowCells (l : List Char) : List (List Inline) :=
  let segs :=
    match splitOnChar '|' l with
    | [] :: t => t
    | s => s
  let segs2 :=
    match segs.getLast? with
    | some [] => segs.dropLast
    | _ => segs
  segs2.map (fun s => parseInlines (trimSpaces s))

/-- Modelled from the spec: block-level parsing of the line sequence
(spec §4 steps 1–2): blank lines separate blocks, a `#` line is a heading,
a pipe row followed by a delimiter row opens a table that extends over the
following pipe rows (first row header cells, later rows data cells), and any
other line is a paragraph. Fuel-based recursion: each step consumes at
least one line, so `fuel = number of lines` suffices. -/

def parseBlocksGo : Nat → List (List Char) → List MdBlock
  | 0, _ => []
  | _ + 1, [] => []
  | fuel + 1, l :: ls =>
    if isBlankLine l then parseBlocksGo fuel ls
    else
      match isHeadingLine l with
      | some (n, content) => .heading n (parseInlines content) :: parseBlocksGo fuel ls
      | none =>
        match ls with
        | l2 :: rest2 =>
          if isRowLine l && isDelimLine l2 then
            .table (parseRowCells l) ((rest2.takeWhile isRowLine).map parseRowCells)
              :: parseBlocksGo fuel (rest2.dropWhile isRowLine)
          else .paragraph (parseInlines l) :: parseBlocksGo fuel ls
        | [] => .paragraph (parseInlines l) :: parseBlocksGo fuel ls

/-- Modelled from the spec: parse a markdown character sequence into the
block parse tree (spec §4 step 1). -/

def parseMarkdownBlocks (m : List Char) : List MdBlock :=
  let lines := splitOnChar '\n' m
  parseBlocksGo lines.length lines

/-- Map a parsed inline mark to its ADF mark; the mark type names are the
schema mark names of src/unnamed/part_021 (`strong`, `em`, `code`, `link`,
`strike`). -/

def inlineMarkToAdf : InlineMark → AdfMark
  | .strong => ⟨"strong", none⟩
  | .em => ⟨"em", none⟩
  | .strike => ⟨"strike", none⟩
  | .code => ⟨"code", none⟩
  | .link href => ⟨"link", some [("href", Json.str (String.mk href))]⟩

/-- Map a parsed inline run to an ADF text leaf; the `marks` field is
omitted when no mark applies, matching the optional `marks?` field of the
`AdfNode` interface in src/unnamed/part_021. -/

def inlineToAdf (i : Inline) : AdfNode :=
  .mk "text" none none
    (if i.marks.isEmpty then none else some (i.marks.map inlineMarkToAdf))
    (some (String.mk i.text))

/-- Build a table cell node (`tableHeader` or `tableCell`, the node names
of the schema in src/unnamed/part_021) holding one paragraph of inline
content. -/

def cellToAdf (cellKind : String) (content : List Inline) : AdfNode :=
  .mk cellKind none
    (some [.mk "paragraph" none (some (content.map inlineToAdf)) none none])
    none none

/-- Modelled from the spec: emit the ADF block node for each parse-tree
block (spec §4 steps 2 and 5), with the node type names taken from the
schema node list in src/unnamed/part_021; the first table row is made of
`tableHeader` cells, later rows of `tableCell` cells. -/

def mdBlockToAdf : MdBlock → AdfNode
  | .paragraph c => .mk "paragraph" none (some (c.map inlineToAdf)) none none
  | .heading n c =>
    .mk "heading" (some [("level", Json.num (n : Int))])
      (some (c.map inlineToAdf)) none none
  | .table header rows =>
    .mk "table" none
      (some
        (AdfNode.mk "tableRow" none
            (some (header.map (cellToAdf "tableHeader"))) none none
          :: rows.map (fun r =>
            AdfNode.mk "tableRow" none
              (some (r.map (cellToAdf "tableCell"))) none none)))
      none none

/-- Embeds `markdownToAdf` of src/unnamed/part_021: parse the markdown
string and encode the parse tree as an ADF document with the fixed
top-level fields `version: 1` and `type: "doc"` of the `AdfDocument`
interface. The parsing/encoding delegated there to the external
`@atlaskit` transformers is modelled from the spec (definitions above). -/

def markdownToAdf (markdown : String) : AdfDocument :=
  ⟨1, "doc", (parseMarkdownBlocks markdown.data).map mdBlockToAdf⟩

/-- Escape one character for a JSON string literal, as `JSON.stringify`
does for the characters the model can produce. -/

def escapeJsonChar (c : Char) : String :=
  if c == '"' then "\\\""
  else if c == '\\' then "\\\\"
  else if c == '\n' then "\\n"
  else if c == '\t' then "\\t"
  else if c == '\r' then "\\r"
  else String.mk [c]

/-- A JSON string literal with surrounding quotes. -/

def quoteJson (s : String) : String :=
  "\"" ++ String.join (s.data.map escapeJsonChar) ++ "\""

mutual

/-- Modelled from the spec: the JavaScript builtin `JSON.stringify` used by
`markdownToAdfString` (src/unnamed/part_021) and `withTempJson`
(src/scripts/lib/acli/utils.ts), which is not repository code. -/

def jsonStringify : Json → String
  | .null => "null"
  | .bool b => if b then "true" else "false"
  | .num n => toString n
  | .str s => quoteJson s
  | .arr es => "[" ++ jsonStringifyList es ++ "]"
  | .obj fs => "\x7b" ++ jsonStringifyFields fs ++ "\x7d"

/-- Comma-separated serialization of the elements of a JSON array. -/

def jsonStringifyList : List Json → String
  | [] => ""
  | [j] => jsonStringify j
  | j :: k :: t => jsonStringify j ++ "," ++ jsonStringifyList (k :: t)

/-- Comma-separated serialization of the fields of a JSON object. -/

def jsonStringifyFields : List (String × Json) → String
  | [] => ""
  | [(k, v)] => quoteJson k ++ ":" ++ jsonStringify v
  | (k, v) :: e :: t => quoteJson k ++ ":" ++ jsonStringify v ++ "," ++ jsonStringifyFields (e :: t)

end

/-- Encode an ADF mark as a JSON value. -/

def adfMarkToJson (m : AdfMark) : Json :=
  .obj
    ([("type", Json.str m.type)]
      ++ (match m.attrs with
          | some a => [("attrs", Json.obj a)]
          | none => []))

mutual

/-- Encode an ADF node as the JSON value `JSON.stringify` receives; optional
fields absent from the node are omitted, in the field order of the `AdfNode`
interface of src/unnamed/part_021. -/

def adfNodeToJson : AdfNode → Json
  | .mk ty attrs contentOpt marksOpt textOpt =>
    .obj
      ([("type", Json.str ty)]
        ++ (match attrs with
            | some a => [("attrs", Json.obj a)]
            | none => [])
        ++ (match contentOpt with
            | some cs => [("content", Json.arr (adfNodeListToJson cs))]
            | none => [])
        ++ (match marksOpt with
            | some ms => [("marks", Json.arr (ms.map adfMarkToJson))]
            | none => [])
        ++ (match textOpt with
            | some t => [("text", Json.str t)]
            | none => []))

/-- Encode a list of ADF nodes as JSON values. -/

def adfNodeListToJson : List AdfNode → List Json
  | [] => []
  | n :: t => adfNodeToJson n :: adfNodeListToJson t

end

/-- Encode an ADF document as the JSON value `JSON.stringify` receives, in
the field order of the `AdfDocument` interface of src/unnamed/part_021. -/

def adfDocumentToJson (d : AdfDocument) : Json :=
  .obj
    [("version", Json.num (d.version : Int)),
     ("type", Json.str d.type),
     ("content", Json.arr (adfNodeListToJson d.content))]

/-- Embeds `markdownToAdfString` of src/unnamed/part_021:
`JSON.stringify(markdownToAdf(markdown))`. -/

def markdownToAdfString (markdown : String) : String :=
  jsonStringify (adfDocumentToJson (markdownToAdf markdown))

/-- The node type names of the schema created in src/unnamed/part_021. -/

def knownNodeName (t : String) : Bool :=
  ["doc", "paragraph", "text", "bulletList", "orderedList", "listItem",
   "heading", "blockquote", "codeBlock", "hardBreak", "rule",
   "table", "tableRow", "tableCell", "tableHeader"].contains t

/-- The mark type names of the schema created in src/unnamed/part_021. -/

def knownMarkName (t : String) : Bool :=
  ["strong", "em", "code", "link", "strike"].contains t

/-- The attrs of a heading carry a level in 1–6 (spec §3 invariant). -/

def levelAttrOk : Option (List (String × Json)) → Bool
  | some [("level", Json.num k)] => decide (1 ≤ k) && decide (k ≤ 6)
  | _ => false

/-- The attrs of a link mark carry a non-empty href (spec §3 invariant). -/

def hrefAttrOk : Option (List (String × Json)) → Bool
  | some [("href", Json.str s)] => !s.data.isEmpty
  | _ => false

/-- A structurally valid mark: known name, and a link has a non-empty href. -/

def markOk (m : AdfMark) : Bool :=
  knownMarkName m.type && (if m.type == "link" then hrefAttrOk m.attrs else true)

/-- The optional marks field holds only valid marks. -/

def marksOptOk : Option (List AdfMark) → Bool
  | none => true
  | some ms => ms.all markOk

mutual

/-- The predicate `p` holds of this node and of all its descendants. -/

def nodeAll (p : AdfNode → Bool) : AdfNode → Bool
  | .mk t a none mks tx => p (.mk t a none mks tx)
  | .mk t a (some cs) mks tx => p (.mk t a (some cs) mks tx) && nodesAll p cs

/-- The predicate `p` holds of every node of the list and their descendants. -/

def nodesAll (p : AdfNode → Bool) : List AdfNode → Bool
  | [] => true
  | n :: rest => nodeAll p n && nodesAll p rest

end

/-- Local well-formedness of one node: a known node type, a clamped level
when it is a heading, and valid marks (spec §3 invariants). -/

def localOk (n : AdfNode) : Bool :=
  knownNodeName n.type
    && (if n.type == "heading" then levelAttrOk n.attrs else true)
    && marksOptOk n.marks

/-- Every heading node carries a level attribute in 1–6 (spec §3). -/

def headingLevelOk (n : AdfNode) : Bool :=
  if n.type == "heading" then levelAttrOk n.attrs else true

/-- Every link mark on the node carries a non-empty href (spec §3). -/

def linkMarksOk (n : AdfNode) : Bool :=
  match n.marks with
  | some ms => ms.all (fun mk => if mk.type == "link" then hrefAttrOk mk.attrs else true)
  | none => true

/-- A well-formed document: fixed root type and version, and all nodes
locally well formed (spec §3). -/

def docOk (d : AdfDocument) : Bool :=
  (d.type == "doc") && (d.version == 1) && nodesAll localOk d.content

/-- The invariant of a parsed inline mark: the target of a link is non-empty. -/

def inlineMarkOk : InlineMark → Bool
  | .link href => !href.isEmpty
  | _ => true

/-- The invariant of a parsed inline run. -/

def inlineOk (i : Inline) : Bool := i.marks.all inlineMarkOk

/-- The invariant of a parsed block: clamped heading levels and valid
inline marks everywhere. -/

def blockOk : MdBlock → Bool
  | .paragraph c => c.all inlineOk
  | .heading n c => decide (1 ≤ n) && decide (n ≤ 6) && c.all inlineOk
  | .table header rows =>
    header.all (fun cell => cell.all inlineOk)
      && rows.all (fun r => r.all (fun cell => cell.all inlineOk))

/-- A two-cell pipe-table row `| a | b |`. -/

def tableRowLine (a b : List Char) : List Char :=
  '|' :: ' ' :: (a ++ ' ' :: '|' :: ' ' :: (b ++ [' ', '|']))

/-- The two-column separator row `| --- | --- |`. -/

def tableDelimLine : List Char := "| --- | --- |".data

/-- A generic 2-column, 1-data-row pipe table: header cells `a`/`b`, data
cells `c`/`d` (spec §8, table shape). -/

def twoColumnTableInput (a b c d : List Char) : String :=
  String.mk (tableRowLine a b ++ '\n' :: (tableDelimLine ++ '\n' :: tableRowLine c d))

/-- The file system touched by `withTempJson`, as an association list from
paths to contents, most recent write first. -/

def FsState := List (String × String)

/-- Read the current content of a path, if the file exists. -/

def fsLookup (fs : FsState) (p : String) : Option String :=
  match fs.find? (fun e => e.1 == p) with
  | some e => some e.2
  | none => none

/-- Modelled from the spec: the `Bun.write` builtin used by `withTempJson`
(src/scripts/lib/acli/utils.ts), not repository code — write content to a
path. -/

def fsWrite (fs : FsState) (p c : String) : FsState := (p, c) :: fs

/-- Modelled from the spec: the `Bun.$ rm -f` shell call used by
`withTempJson` (src/scripts/lib/acli/utils.ts), not repository code —
remove every entry at the path, succeeding also when the file is absent. -/

def fsRemove (fs : FsState) (p : String) : FsState :=
  fs.filter (fun e => !(e.1 == p))

/-- The temp path `/tmp/acli-${Date.now()}.json` built by `withTempJson`,
with `Date.now()` passed in explicitly as `now`. -/

def acliTmpPath (now : Nat) : String := "/tmp/acli-" ++ toString now ++ ".json"

/-- Embeds `withTempJson` of src/scripts/lib/acli/utils.ts. The wrapped
async function becomes a state-passing function returning `Except`
(resolution or rejection); `try/finally` becomes: run `fn`, remove the temp
file from the resulting state, and pass the outcome of `fn` through unchanged. -/

def withTempJson {ε α : Type} (now : Nat) (data : Json)
    (fn : String → FsState → FsState × Except ε α) (fs : FsState) :
    FsState × Except ε α :=
  let tmpPath := acliTmpPath now
  let fs1 := fsWrite fs tmpPath (jsonStringify data)
  let r := fn tmpPath fs1
  (fsRemove r.1 tmpPath, r.2)

/-- Embeds the source interface `WorkitemEditOptions`
(src/scripts/lib/acli/workitem.ts): `key: string | string[]` plus optional
fields. An absent optional field is `none`. -/

structure WorkitemEditOptions where
  key : Sum String (List String)
  summary : Option String := none
  description : Option String := none
  descriptionMarkdown : Option String := none
  assignee : Option String := none
  labelsToAdd : Option (List String) := none
  labelsToRemove : Option (List String) := none
  type : Option String := none
  customFields : Option (List (String × Json)) := none

/-- JavaScript truthiness of an optional string option (`if (options.x)`):
false when the option is absent and when it is the empty string. -/

def truthyStr : Option String → Bool
  | some s => !(s == "")
  | none => false

/-- JavaScript truthiness of `options.x?.length`: false when the option is
absent and when the array is empty. -/

def truthyLen {α : Type} : Option (List α) → Bool
  | some l => !l.isEmpty
  | none => false

/-- Embeds `Array.isArray(options.key) ? options.key : [options.key]` of
`edit` (src/scripts/lib/acli/workitem.ts). -/

def issuesOf : Sum String (List String) → List String
  | .inl s => [s]
  | .inr l => l

/-- Embeds the payload construction of `edit`
(src/scripts/lib/acli/workitem.ts, lines 151-185): the `issues` field is
always present; each optional field is added under the truthiness check of the source
guard, in source order; `descriptionMarkdown` takes precedence over
`description` and is converted with `markdownToAdf`; `customFields` is
spread into `additionalAttributes` whenever the option is present. The
payload is the ordered field list handed to `JSON.stringify` via
`withTempJson`. -/

def editPayload (o : WorkitemEditOptions) : List (String × Json) :=
  [("issues", Json.arr ((issuesOf o.key).map Json.str))]
  ++ (if truthyStr o.summary then [("summary", Json.str (o.summary.getD ""))] else [])
  ++ (if truthyStr o.descriptionMarkdown then
        [("description", adfDocumentToJson (markdownToAdf (o.descriptionMarkdown.getD "")))]
      else if truthyStr o.description then
        [("description", Json.str (o.description.getD ""))]
      else [])
  ++ (if truthyStr o.assignee then [("assignee", Json.str (o.assignee.getD ""))] else [])
  ++ (if truthyLen o.labelsToAdd then
        [("labelsToAdd", Json.arr ((o.labelsToAdd.getD []).map Json.str))] else [])
  ++ (if truthyLen o.labelsToRemove then
        [("labelsToRemove", Json.arr ((o.labelsToRemove.getD []).map Json.str))] else [])
  ++ (if truthyStr o.type then [("type", Json.str (o.type.getD ""))] else [])
  ++ (match o.customFields with
      | some cf => [("additionalAttributes", Json.obj cf)]
      | none => [])

/-- Is a field of this name present in the payload object? -/

def hasField (p : List (String × Json)) (k : String) : Bool :=
  p.any (fun e => e.1 == k)

/-- The first value of a field of this name in the payload object. -/

def lookupField (p : List (String × Json)) (k : String) : Option Json :=
  match p.find? (fun e => e.1 == k) with
  | some e => some e.2
  | none => none

/-- The children of the single paragraph of a one-paragraph document. -/

def paragraphLeaves (d : AdfDocument) : List AdfNode :=
  match d.content with
  | [AdfNode.mk "paragraph" _ (some cs) _ _] => cs
  | _ => []

/-- The mark type names carried by each marked text leaf, in order. -/

def markedMarkTypes (leaves : List AdfNode) : List (List String) :=
  (leaves.filter (fun n => !(n.marks.getD []).isEmpty)).map
    (fun n => (n.marks.getD []).map AdfMark.type)

/-- The heading round-trip input: `n` hash characters followed by a space
and the text `H` (spec §8). -/

def headingInput (n : Nat) : String :=
  String.mk (List.replicate n '#' ++ [' ', 'H'])

/-- The description in the spec of `convertToSerializedForm` (§4): `convert`
followed by canonical JSON serialization. -/

def convertToSerializedFormSpec (m : String) : String :=
  jsonStringify (adfDocumentToJson (markdownToAdf m))

/-- A wrapped function for the temp-file helper: leaves the file system
unchanged and resolves with `42`. -/

def constOkFn : String → FsState → FsState × Except String Nat :=
  fun _ fs => (fs, Except.ok 42)

/-- Edit options exercising the payload presence mismatch: a markdown
description is given while `description` is absent, and `customFields` is
provided but empty. -/

def editOptionsCx : WorkitemEditOptions :=
  { key := Sum.inl "PROJ-1", descriptionMarkdown := some "hi", customFields := some [] }

/-! ### Theorems -/

theorem splitAtSub_len {d : List Char} :
    ∀ {l p s : List Char}, splitAtSub d l = some (p, s) → s.length ≤ l.length := by
  intro l
  induction l with
  | nil => intro p s h; simp [splitAtSub] at h
  | cons x xs ih =>
    intro p s h
    simp only [splitAtSub] at h
    split at h
    · simp only [Option.some.injEq, Prod.mk.injEq] at h
      obtain ⟨_, h2⟩ := h
      subst h2
      simp
    · cases hsp : splitAtSub d xs with
      | none => rw [hsp] at h; simp at h
      | some ps =>
        rw [hsp] at h
        obtain ⟨p0, s0⟩ := ps
        simp only [Option.some.injEq, Prod.mk.injEq] at h
        obtain ⟨_, h2⟩ := h
        subst h2
        have := ih hsp
        simp only [List.length_cons]
        omega

theorem all_of_map {α β : Type} (f : α → β) (l : List α) (p : β → Bool) :
    (l.map f).all p = l.all (fun a => p (f a)) := by
  induction l <;> simp_all

theorem consPlain_all (c : Char) (L : List Inline) :
    (consPlain c L).all inlineOk = L.all inlineOk := by
  match L with
  | [] => rfl
  | ⟨s, []⟩ :: t => simp [consPlain, inlineOk]
  | ⟨s, m :: ms⟩ :: t => simp [consPlain, inlineOk]

theorem parseInlinesGo_ok (fuel : Nat) (l : List Char) :
    (parseInlinesGo fuel l).all inlineOk = true := by
  induction fuel, l using parseInlinesGo.induct <;>
    simp_all [parseInlinesGo, consPlain_all, inlineOk, inlineMarkOk] <;>
    try assumption

theorem parseInlines_ok (l : List Char) : (parseInlines l).all inlineOk = true :=
  parseInlinesGo_ok l.length l

theorem parseRowCells_ok (l : List Char) :
    (parseRowCells l).all (fun cell => cell.all inlineOk) = true := by
  rw [List.all_eq_true]
  intro cell hcell
  simp only [parseRowCells, List.mem_map] at hcell
  obtain ⟨s, _, rfl⟩ := hcell
  exact parseInlines_ok (trimSpaces s)

theorem parseInlines_mem {l : List Char} : ∀ i ∈ parseInlines l, inlineOk i = true := by
  have h := parseInlines_ok l
  rwa [List.all_eq_true] at h

theorem parseRowCells_mem {l : List Char} :
    ∀ cell ∈ parseRowCells l, ∀ i ∈ cell, inlineOk i = true := by
  have h := parseRowCells_ok l
  rw [List.all_eq_true] at h
  intro cell hc
  have h2 := h cell hc
  rwa [List.all_eq_true] at h2

theorem isHeadingLine_bounds {l : List Char} {n : Nat} {r : List Char}
    (h : isHeadingLine l = some (n, r)) : 1 ≤ n ∧ n ≤ 6 := by
  unfold isHeadingLine at h
  split at h
  · split at h
    · simp only [Option.some.injEq, Prod.mk.injEq] at h
      obtain ⟨h1, _⟩ := h
      subst h1
      assumption
    · simp at h
  · simp at h

theorem parseBlocksGo_ok (fuel : Nat) (lines : List (List Char)) :
    (parseBlocksGo fuel lines).all blockOk = true := by
  induction fuel, lines using parseBlocksGo.induct with
  | case1 lines => rfl
  | case2 fuel => rfl
  | case3 fuel l ls hblank ih => simpa [parseBlocksGo, hblank] using ih
  | case4 fuel l ls hblank n content hhead ih =>
    have hb := isHeadingLine_bounds hhead
    simp [parseBlocksGo, hblank, hhead, blockOk, parseInlines_ok, ih, hb.1, hb.2]
  | case5 fuel l hblank hhead l2 rest2 htab ih =>
    rw [Bool.and_eq_true] at htab
    have hrows : (List.map parseRowCells (List.takeWhile isRowLine rest2)).all
        (fun r => r.all (fun cell => cell.all inlineOk)) = true := by
      rw [all_of_map, List.all_eq_true]
      intro a _
      exact parseRowCells_ok a
    simp [parseBlocksGo, hblank, hhead, htab.1, htab.2, blockOk, parseRowCells_ok,
      hrows, ih]
  | case6 fuel l hblank hhead l2 rest2 htab ih =>
    simp [parseBlocksGo, hblank, hhead, htab, blockOk, parseInlines_ok, ih]
  | case7 fuel l hblank hhead ih =>
    simp [parseBlocksGo, hblank, hhead, blockOk, parseInlines_ok, ih]

theorem parseMarkdownBlocks_ok (m : List Char) :
    (parseMarkdownBlocks m).all blockOk = true :=
  parseBlocksGo_ok _ _

theorem nodesAll_eq_all (p : AdfNode → Bool) (l : List AdfNode) :
    nodesAll p l = l.all (nodeAll p) := by
  induction l with
  | nil => rfl
  | cons n t ih => simp [nodesAll, ih]

theorem nodeAll_inlineToAdf (p : AdfNode → Bool) (i : Inline) :
    nodeAll p (inlineToAdf i) = p (inlineToAdf i) := by
  simp [inlineToAdf, nodeAll]

theorem markOk_inlineMarkToAdf (mk : InlineMark) :
    markOk (inlineMarkToAdf mk) = inlineMarkOk mk := by
  cases mk <;> simp [markOk, inlineMarkToAdf, knownMarkName, hrefAttrOk, inlineMarkOk]

theorem linkCheck_inlineMarkToAdf (mk : InlineMark) :
    (if (inlineMarkToAdf mk).type == "link"
      then hrefAttrOk (inlineMarkToAdf mk).attrs else true) = inlineMarkOk mk := by
  cases mk <;> simp [inlineMarkToAdf, hrefAttrOk, inlineMarkOk]

theorem nodesAll_inlines (p : AdfNode → Bool)
    (htext : ∀ i, inlineOk i = true → p (inlineToAdf i) = true)
    (c : List Inline) (hc : c.all inlineOk = true) :
    nodesAll p (c.map inlineToAdf) = true := by
  rw [nodesAll_eq_all, all_of_map, List.all_eq_true]
  intro i hi
  rw [nodeAll_inlineToAdf]
  rw [List.all_eq_true] at hc
  exact htext i (hc i hi)

theorem nodeAll_cellToAdf (p : AdfNode → Bool)
    (htext : ∀ i, inlineOk i = true → p (inlineToAdf i) = true)
    (kind : String) (hkind : ∀ cs, p (.mk kind none (some cs) none none) = true)
    (hpara : ∀ cs, p (.mk "paragraph" none (some cs) none none) = true)
    (content : List Inline) (hc : content.all inlineOk = true) :
    nodeAll p (cellToAdf kind content) = true := by
  simp [cellToAdf, nodeAll, nodesAll, hkind, hpara,
    nodesAll_inlines p htext content hc]

theorem nodesAll_cells (p : AdfNode → Bool)
    (htext : ∀ i, inlineOk i = true → p (inlineToAdf i) = true)
    (kind : String) (hkind : ∀ cs, p (.mk kind none (some cs) none none) = true)
    (hpara : ∀ cs, p (.mk "paragraph" none (some cs) none none) = true)
    (cells : List (List Inline))
    (hc : cells.all (fun cell => cell.all inlineOk) = true) :
    nodesAll p (cells.map (cellToAdf kind)) = true := by
  rw [nodesAll_eq_all, all_of_map, List.all_eq_true]
  intro cell hcell
  rw [List.all_eq_true] at hc
  exact nodeAll_cellToAdf p htext kind hkind hpara cell (hc cell hcell)

theorem nodeAll_mdBlockToAdf (p : AdfNode → Bool)
    (hpara : ∀ cs, p (.mk "paragraph" none (some cs) none none) = true)
    (hhead : ∀ (n : Nat) (cs : List AdfNode), 1 ≤ n → n ≤ 6 →
      p (.mk "heading" (some [("level", Json.num (n : Int))]) (some cs) none none) = true)
    (htable : ∀ cs, p (.mk "table" none (some cs) none none) = true)
    (hrow : ∀ cs, p (.mk "tableRow" none (some cs) none none) = true)
    (hhc : ∀ cs, p (.mk "tableHeader" none (some cs) none none) = true)
    (hcell : ∀ cs, p (.mk "tableCell" none (some cs) none none) = true)
    (htext : ∀ i, inlineOk i = true → p (inlineToAdf i) = true)
    (b : MdBlock) (hb : blockOk b = true) : nodeAll p (mdBlockToAdf b) = true := by
  cases b with
  | paragraph c =>
    simp only [blockOk] at hb
    simp [mdBlockToAdf, nodeAll, hpara, nodesAll_inlines p htext c hb]
  | heading n c =>
    simp only [blockOk, Bool.and_eq_true, decide_eq_true_eq] at hb
    obtain ⟨⟨h1, h2⟩, h3⟩ := hb
    have hp := hhead n (c.map inlineToAdf) h1 h2
    simp [mdBlockToAdf, nodeAll, hp, nodesAll_inlines p htext c h3]
  | table header rows =>
    simp only [blockOk, Bool.and_eq_true] at hb
    obtain ⟨hheader, hrows⟩ := hb
    have hdata : nodesAll p (rows.map (fun r =>
        AdfNode.mk "tableRow" none (some (r.map (cellToAdf "tableCell"))) none none)) = true := by
      rw [nodesAll_eq_all, all_of_map, List.all_eq_true]
      intro r hr
      rw [List.all_eq_true] at hrows
      simp [nodeAll, hrow, nodesAll_cells p htext "tableCell" hcell hpara r (hrows r hr)]
    simp [mdBlockToAdf, nodeAll, nodesAll, htable, hrow, hdata,
      nodesAll_cells p htext "tableHeader" hhc hpara header hheader]

theorem markdownToAdf_nodesAll (p : AdfNode → Bool)
    (hpara : ∀ cs, p (.mk "paragraph" none (some cs) none none) = true)
    (hhead : ∀ (n : Nat) (cs : List AdfNode), 1 ≤ n → n ≤ 6 →
      p (.mk "heading" (some [("level", Json.num (n : Int))]) (some cs) none none) = true)
    (htable : ∀ cs, p (.mk "table" none (some cs) none none) = true)
    (hrow : ∀ cs, p (.mk "tableRow" none (some cs) none none) = true)
    (hhc : ∀ cs, p (.mk "tableHeader" none (some cs) none none) = true)
    (hcell : ∀ cs, p (.mk "tableCell" none (some cs) none none) = true)
    (htext : ∀ i, inlineOk i = true → p (inlineToAdf i) = true)
    (m : String) : nodesAll p (markdownToAdf m).content = true := by
  show nodesAll p ((parseMarkdownBlocks m.data).map mdBlockToAdf) = true
  rw [nodesAll_eq_all, all_of_map, List.all_eq_true]
  intro b hb
  have hbok : blockOk b = true := by
    have h := parseMarkdownBlocks_ok m.data
    rw [List.all_eq_true] at h
    exact h b hb
  exact nodeAll_mdBlockToAdf p hpara hhead htable hrow hhc hcell htext b hbok

theorem splitOnChar_cons_self (c : Char) (r : List Char) :
    splitOnChar c (c :: r) = [] :: splitOnChar c r := by
  simp [splitOnChar]

theorem splitOnChar_not_mem {c : Char} {l : List Char} (h : c ∉ l) :
    splitOnChar c l = [l] := by
  induction l with
  | nil => rfl
  | cons x xs ih =>
    simp only [List.mem_cons, not_or] at h
    obtain ⟨hne, hxs⟩ := h
    have hx : (x == c) = false := by
      rw [beq_eq_false_iff_ne]
      exact fun he => hne he.symm
    simp [splitOnChar, hx, ih hxs]

theorem splitOnChar_append {c : Char} {l1 : List Char} (l2 : List Char) (h : c ∉ l1) :
    splitOnChar c (l1 ++ c :: l2) = l1 :: splitOnChar c l2 := by
  induction l1 with
  | nil => simp [splitOnChar]
  | cons x xs ih =>
    simp only [List.mem_cons, not_or] at h
    obtain ⟨hne, hxs⟩ := h
    have hx : (x == c) = false := by
      rw [beq_eq_false_iff_ne]
      exact fun he => hne he.symm
    simp [splitOnChar, hx, ih hxs]

theorem not_mem_tableRowLine {a b : List Char}
    (ha : '\n' ∉ a) (hb : '\n' ∉ b) : '\n' ∉ tableRowLine a b := by
  intro hmem
  unfold tableRowLine at hmem
  rcases List.mem_cons.mp hmem with h | hmem
  · exact absurd h (by decide)
  rcases List.mem_cons.mp hmem with h | hmem
  · exact absurd h (by decide)
  rcases List.mem_append.mp hmem with h | hmem
  · exact ha h
  rcases List.mem_cons.mp hmem with h | hmem
  · exact absurd h (by decide)
  rcases List.mem_cons.mp hmem with h | hmem
  · exact absurd h (by decide)
  rcases List.mem_cons.mp hmem with h | hmem
  · exact absurd h (by decide)
  rcases List.mem_append.mp hmem with h | hmem
  · exact hb h
  rcases List.mem_cons.mp hmem with h | hmem
  · exact absurd h (by decide)
  rcases List.mem_cons.mp hmem with h | hmem
  · exact absurd h (by decide)
  exact absurd hmem (List.not_mem_nil _)

theorem parseRowCells_tableRowLine {a b : List Char} (ha : '|' ∉ a) (hb : '|' ∉ b) :
    parseRowCells (tableRowLine a b) =
      [parseInlines (trimSpaces (' ' :: a ++ [' '])),
       parseInlines (trimSpaces (' ' :: b ++ [' ']))] := by
  have hA : '|' ∉ (' ' :: a ++ [' ']) := by
    intro hmem
    rcases List.mem_cons.mp hmem with h | hmem
    · exact absurd h (by decide)
    rcases List.mem_append.mp hmem with h | h
    · exact ha h
    · exact absurd (List.mem_singleton.mp h) (by decide)
  have hB : '|' ∉ (' ' :: b ++ [' ']) := by
    intro hmem
    rcases List.mem_cons.mp hmem with h | hmem
    · exact absurd h (by decide)
    rcases List.mem_append.mp hmem with h | h
    · exact hb h
    · exact absurd (List.mem_singleton.mp h) (by decide)
  have e1 : tableRowLine a b =
      '|' :: ((' ' :: a ++ [' ']) ++ '|' :: ((' ' :: b ++ [' ']) ++ '|' :: ([] : List Char))) := by
    simp [tableRowLine]
  have key : splitOnChar '|' (tableRowLine a b) =
      [[], ' ' :: a ++ [' '], ' ' :: b ++ [' '], []] := by
    rw [e1, splitOnChar_cons_self, splitOnChar_append _ hA, splitOnChar_append _ hB]
    rfl
  unfold parseRowCells
  rw [key]
  rfl

theorem localOk_text (i : Inline) (hok : inlineOk i = true) :
    localOk (inlineToAdf i) = true := by
  by_cases hm : i.marks.isEmpty
  · simp [localOk, inlineToAdf, AdfNode.type, AdfNode.attrs, AdfNode.marks, hm,
      marksOptOk, knownNodeName]
  · have hall : (i.marks.map inlineMarkToAdf).all markOk = true := by
      rw [all_of_map, List.all_eq_true]
      intro mk hmk
      rw [markOk_inlineMarkToAdf]
      unfold inlineOk at hok
      rw [List.all_eq_true] at hok
      exact hok mk hmk
    simp [localOk, inlineToAdf, AdfNode.type, AdfNode.attrs, AdfNode.marks, hm,
      marksOptOk, knownNodeName, hall]

theorem markdownToAdf_docOk (m : String) : docOk (markdownToAdf m) = true := by
  unfold docOk
  rw [Bool.and_eq_true, Bool.and_eq_true]
  refine ⟨⟨by rfl, by rfl⟩, ?_⟩
  refine markdownToAdf_nodesAll localOk ?_ ?_ ?_ ?_ ?_ ?_ ?_ m
  · intro cs
    simp [localOk, AdfNode.type, AdfNode.attrs, AdfNode.marks, knownNodeName, marksOptOk]
  · intro n cs h1 h2
    simp [localOk, knownNodeName, levelAttrOk, marksOptOk, AdfNode.type,
      AdfNode.attrs, AdfNode.marks, decide_eq_true_eq]
    omega
  · intro cs
    simp [localOk, AdfNode.type, AdfNode.attrs, AdfNode.marks, knownNodeName, marksOptOk]
  · intro cs
    simp [localOk, AdfNode.type, AdfNode.attrs, AdfNode.marks, knownNodeName, marksOptOk]
  · intro cs
    simp [localOk, AdfNode.type, AdfNode.attrs, AdfNode.marks, knownNodeName, marksOptOk]
  · intro cs
    simp [localOk, AdfNode.type, AdfNode.attrs, AdfNode.marks, knownNodeName, marksOptOk]
  · exact localOk_text

theorem linkMarksOk_text (i : Inline) (hok : inlineOk i = true) :
    linkMarksOk (inlineToAdf i) = true := by
  by_cases hm : i.marks.isEmpty
  · simp [linkMarksOk, inlineToAdf, AdfNode.marks, hm]
  · have hall : (i.marks.map inlineMarkToAdf).all
        (fun mk => if mk.type == "link" then hrefAttrOk mk.attrs else true) = true := by
      rw [all_of_map, List.all_eq_true]
      intro mk hmk
      rw [linkCheck_inlineMarkToAdf]
      unfold inlineOk at hok
      rw [List.all_eq_true] at hok
      exact hok mk hmk
    unfold linkMarksOk inlineToAdf
    simp only [AdfNode.marks]
    rw [if_neg hm]
    exact hall

theorem fsLookup_write (fs : FsState) (p c : String) :
    fsLookup (fsWrite fs p c) p = some c := by
  unfold fsLookup fsWrite
  rw [List.find?_cons_of_pos]
  simp

theorem fsLookup_remove (fs : FsState) (p : String) :
    fsLookup (fsRemove fs p) p = none := by
  induction fs with
  | nil => rfl
  | cons e t ih =>
    by_cases he : (e.1 == p) = true
    · simpa [fsRemove, List.filter_cons, he] using ih
    · simp only [Bool.not_eq_true] at he
      unfold fsRemove at ih ⊢
      simp only [List.filter_cons, he, Bool.not_false, if_pos]
      unfold fsLookup at ih ⊢
      rw [List.find?_cons_of_neg]
      · exact ih
      · simp [he]

theorem hasField_append (p q : List (String × Json)) (k : String) :
    hasField (p ++ q) k = (hasField p k || hasField q k) := by
  simp [hasField, List.any_append]

theorem hasField_ite (c : Prop) [Decidable c] (l1 l2 : List (String × Json)) (k : String) :
    hasField (if c then l1 else l2) k = if c then hasField l1 k else hasField l2 k := by
  split <;> rfl

theorem hasField_nil (k : String) : hasField [] k = false := rfl

theorem hasField_single (k : String) (v : Json) (k2 : String) :
    hasField [(k, v)] k2 = (k == k2) := by
  simp [hasField]

theorem hasField_cons (e : String × Json) (rest : List (String × Json)) (k : String) :
    hasField (e :: rest) k = (e.1 == k || hasField rest k) := by
  simp [hasField]

theorem editPayload_issues (o : WorkitemEditOptions) :
    lookupField (editPayload o) "issues" = some (Json.arr ((issuesOf o.key).map Json.str)) := rfl

theorem editPayload_summary (o : WorkitemEditOptions) :
    hasField (editPayload o) "summary" = truthyStr o.summary := by
  cases hcf : o.customFields <;> cases hs : truthyStr o.summary <;>
    simp [editPayload, hasField_append, hasField_ite, hasField_single, hasField_nil, hasField_cons, hcf, hs]

theorem editPayload_description (o : WorkitemEditOptions) :
    hasField (editPayload o) "description"
      = (truthyStr o.descriptionMarkdown || truthyStr o.description) := by
  cases hcf : o.customFields <;> cases hdm : truthyStr o.descriptionMarkdown <;>
    cases hd : truthyStr o.description <;>
      simp [editPayload, hasField_append, hasField_ite, hasField_single, hasField_nil, hasField_cons,
        hcf, hdm, hd]

theorem editPayload_assignee (o : WorkitemEditOptions) :
    hasField (editPayload o) "assignee" = truthyStr o.assignee := by
  cases hcf : o.customFields <;> cases ha : truthyStr o.assignee <;>
    simp [editPayload, hasField_append, hasField_ite, hasField_single, hasField_nil, hasField_cons, hcf, ha]

theorem editPayload_labelsToAdd (o : WorkitemEditOptions) :
    hasField (editPayload o) "labelsToAdd" = truthyLen o.labelsToAdd := by
  cases hcf : o.customFields <;> cases hl : truthyLen o.labelsToAdd <;>
    simp [editPayload, hasField_append, hasField_ite, hasField_single, hasField_nil, hasField_cons, hcf, hl]

theorem editPayload_labelsToRemove (o : WorkitemEditOptions) :
    hasField (editPayload o) "labelsToRemove" = truthyLen o.labelsToRemove := by
  cases hcf : o.customFields <;> cases hl : truthyLen o.labelsToRemove <;>
    simp [editPayload, hasField_append, hasField_ite, hasField_single, hasField_nil, hasField_cons, hcf, hl]

theorem editPayload_type (o : WorkitemEditOptions) :
    hasField (editPayload o) "type" = truthyStr o.type := by
  cases hcf : o.customFields <;> cases ht : truthyStr o.type <;>
    simp [editPayload, hasField_append, hasField_ite, hasField_single, hasField_nil, hasField_cons, hcf, ht]

theorem editPayload_additionalAttributes (o : WorkitemEditOptions) :
    hasField (editPayload o) "additionalAttributes" = o.customFields.isSome := by
  cases hcf : o.customFields <;>
    simp [editPayload, hasField_append, hasField_ite, hasField_single, hasField_nil, hasField_cons, hcf]

/-- C1: for the empty string, `markdownToAdf` returns the document with the
fixed top-level fields `type = "doc"` and `version = 1` and an empty
content sequence. -/
theorem markdownToAdf_empty : markdownToAdf "" = ⟨1, "doc", []⟩ := rfl

/-- C2: for every 2-column, 1-data-row pipe table (cells free of pipe and
newline characters), the converted document is a single table block with
exactly 2 tableRow children, the first made of exactly 2 header cells
(ADF node name `tableHeader`, the tableHeaderCell of the spec) and the second
of exactly 2 `tableCell` nodes. -/
theorem markdownToAdf_table_shape (a b c d : List Char)
    (hpa : '|' ∉ a) (hna : '\n' ∉ a) (hpb : '|' ∉ b) (hnb : '\n' ∉ b)
    (hpc : '|' ∉ c) (hnc : '\n' ∉ c) (hpd : '|' ∉ d) (hnd : '\n' ∉ d) :
    markdownToAdf (twoColumnTableInput a b c d) =
      ⟨1, "doc",
        [AdfNode.mk "table" none
          (some
            [AdfNode.mk "tableRow" none
              (some [cellToAdf "tableHeader" (parseInlines (trimSpaces (' ' :: a ++ [' ']))),
                     cellToAdf "tableHeader" (parseInlines (trimSpaces (' ' :: b ++ [' '])))])
              none none,
             AdfNode.mk "tableRow" none
              (some [cellToAdf "tableCell" (parseInlines (trimSpaces (' ' :: c ++ [' ']))),
                     cellToAdf "tableCell" (parseInlines (trimSpaces (' ' :: d ++ [' '])))])
              none none])
          none none]⟩ := by
  have hr1 := not_mem_tableRowLine hna hnb
  have hr3 := not_mem_tableRowLine hnc hnd
  have hdelim : ('\n' : Char) ∉ tableDelimLine := by decide
  have hlines : splitOnChar '\n' (twoColumnTableInput a b c d).data
      = [tableRowLine a b, tableDelimLine, tableRowLine c d] := by
    show splitOnChar '\n'
        (tableRowLine a b ++ '\n' :: (tableDelimLine ++ '\n' :: tableRowLine c d)) = _
    rw [splitOnChar_append _ hr1, splitOnChar_append _ hdelim, splitOnChar_not_mem hr3]
  show AdfDocument.mk 1 "doc"
      ((parseBlocksGo (splitOnChar '\n' (twoColumnTableInput a b c d).data).length
        (splitOnChar '\n' (twoColumnTableInput a b c d).data)).map mdBlockToAdf) = _
  rw [hlines]
  rw [show parseBlocksGo
      ([tableRowLine a b, tableDelimLine, tableRowLine c d]).length
      [tableRowLine a b, tableDelimLine, tableRowLine c d]
      = [MdBlock.table (parseRowCells (tableRowLine a b)) [parseRowCells (tableRowLine c d)]]
    from rfl]
  rw [parseRowCells_tableRowLine hpa hpb, parseRowCells_tableRowLine hpc hpd]
  rfl

/-- Witness for C2 at the concrete table `| a | b |` / `| c | d |`. -/
theorem markdownToAdf_table_shape_witness :
    (('|' : Char) ∉ ['a'] ∧ ('\n' : Char) ∉ ['a']) ∧
    markdownToAdf (twoColumnTableInput ['a'] ['b'] ['c'] ['d']) =
      ⟨1, "doc",
        [AdfNode.mk "table" none
          (some
            [AdfNode.mk "tableRow" none
              (some [cellToAdf "tableHeader" (parseInlines (trimSpaces (' ' :: ['a'] ++ [' ']))),
                     cellToAdf "tableHeader" (parseInlines (trimSpaces (' ' :: ['b'] ++ [' '])))])
              none none,
             AdfNode.mk "tableRow" none
              (some [cellToAdf "tableCell" (parseInlines (trimSpaces (' ' :: ['c'] ++ [' ']))),
                     cellToAdf "tableCell" (parseInlines (trimSpaces (' ' :: ['d'] ++ [' '])))])
              none none])
          none none]⟩ :=
  ⟨⟨by decide, by decide⟩,
   markdownToAdf_table_shape ['a'] ['b'] ['c'] ['d']
     (by decide) (by decide) (by decide) (by decide)
     (by decide) (by decide) (by decide) (by decide)⟩

/-- C3: converting `**bold** and *italic* and ~~gone~~ and `code`` yields,
inside the resulting paragraph, exactly four marked text leaves carrying
one mark each — the bold, italic, strikethrough and inlineCode of the spec,
which are the schema mark names strong, em, strike and code of
src/unnamed/part_021 — in that left-to-right order. -/
theorem markdownToAdf_mark_aggregation :
    markedMarkTypes (paragraphLeaves
        (markdownToAdf "**bold** and *italic* and ~~gone~~ and `code`"))
      = [["strong"], ["em"], ["strike"], ["code"]] := rfl

/-- C4: the conversion is a total Lean function on strings, and for every
input the returned document is well formed: root type `"doc"`, version 1,
and every node has a known type, clamped heading levels and valid marks. -/
theorem markdownToAdf_total_wellformed (m : String) :
    (markdownToAdf m).type = "doc" ∧ (markdownToAdf m).version = 1 ∧
      docOk (markdownToAdf m) = true :=
  ⟨rfl, rfl, markdownToAdf_docOk m⟩

/-- Witness for C4 at a malformed-markdown input (unclosed emphasis). -/
theorem markdownToAdf_total_wellformed_witness :
    (markdownToAdf "**unclosed *stuff ~~").type = "doc" ∧
    (markdownToAdf "**unclosed *stuff ~~").version = 1 ∧
    docOk (markdownToAdf "**unclosed *stuff ~~") = true :=
  markdownToAdf_total_wellformed "**unclosed *stuff ~~"

/-- C5: `markdownToAdfString` equals the tree-form conversion followed by
JSON serialization, the `convertToSerializedForm` refinement of the spec. -/
theorem markdownToAdfString_is_serialized_convert (m : String) :
    markdownToAdfString m = convertToSerializedFormSpec m := rfl

/-- Witness for C5 at the input `# H`. -/
theorem markdownToAdfString_is_serialized_convert_witness :
    markdownToAdfString "# H" = convertToSerializedFormSpec "# H" :=
  markdownToAdfString_is_serialized_convert "# H"

/-- C6: for every n in 1..6, converting n hashes followed by ` H` yields
exactly one heading block of level n; and in every output document the level attribute of every
heading node lies in 1–6. -/
theorem markdownToAdf_heading_roundtrip :
    (∀ n : Nat, 1 ≤ n → n ≤ 6 →
      markdownToAdf (headingInput n) =
        ⟨1, "doc", [AdfNode.mk "heading" (some [("level", Json.num (n : Int))])
          (some [AdfNode.mk "text" none none none (some "H")]) none none]⟩)
    ∧ (∀ m : String, nodesAll headingLevelOk (markdownToAdf m).content = true) := by
  constructor
  · intro n h1 h2
    interval_cases n <;> rfl
  · intro m
    refine markdownToAdf_nodesAll headingLevelOk ?_ ?_ ?_ ?_ ?_ ?_ ?_ m
    · intro cs; simp [headingLevelOk, AdfNode.type, AdfNode.attrs]
    · intro n cs h1 h2
      simp [headingLevelOk, AdfNode.type, AdfNode.attrs, levelAttrOk, decide_eq_true_eq]
      omega
    · intro cs; simp [headingLevelOk, AdfNode.type, AdfNode.attrs]
    · intro cs; simp [headingLevelOk, AdfNode.type, AdfNode.attrs]
    · intro cs; simp [headingLevelOk, AdfNode.type, AdfNode.attrs]
    · intro cs; simp [headingLevelOk, AdfNode.type, AdfNode.attrs]
    · intro i _; simp [headingLevelOk, inlineToAdf, AdfNode.type]

/-- Witness for C6 at level 3. -/
theorem markdownToAdf_heading_roundtrip_witness :
    (1 ≤ 3 ∧ 3 ≤ 6) ∧
    markdownToAdf (headingInput 3) =
      ⟨1, "doc", [AdfNode.mk "heading" (some [("level", Json.num ((3 : Nat) : Int))])
        (some [AdfNode.mk "text" none none none (some "H")]) none none]⟩ :=
  ⟨⟨by decide, by decide⟩, markdownToAdf_heading_roundtrip.1 3 (by decide) (by decide)⟩

/-- C7: converting `[text](https://a.b/c)` yields a text leaf with a link
mark whose href is exactly `https://a.b/c`; and in every output document
every link mark carries a non-empty href. -/
theorem markdownToAdf_link_href :
    markdownToAdf "[text](https://a.b/c)" =
      ⟨1, "doc", [AdfNode.mk "paragraph" none
        (some [AdfNode.mk "text" none none
          (some [AdfMark.mk "link" (some [("href", Json.str "https://a.b/c")])])
          (some "text")]) none none]⟩
    ∧ (∀ m : String, nodesAll linkMarksOk (markdownToAdf m).content = true) := by
  constructor
  · rfl
  · intro m
    refine markdownToAdf_nodesAll linkMarksOk ?_ ?_ ?_ ?_ ?_ ?_ ?_ m
    · intro cs; simp [linkMarksOk, AdfNode.marks]
    · intro n cs h1 h2; simp [linkMarksOk, AdfNode.marks]
    · intro cs; simp [linkMarksOk, AdfNode.marks]
    · intro cs; simp [linkMarksOk, AdfNode.marks]
    · intro cs; simp [linkMarksOk, AdfNode.marks]
    · intro cs; simp [linkMarksOk, AdfNode.marks]
    · exact linkMarksOk_text

/-- Witness for the universal part of C7 at the input `[a](b)`. -/
theorem markdownToAdf_link_href_witness :
    nodesAll linkMarksOk (markdownToAdf "[a](b)").content = true :=
  markdownToAdf_link_href.2 "[a](b)"

/-- C8: the conversion is a pure function of its input alone — two calls on
equal inputs give structurally equal documents; there is no other state the
embedding could depend on. -/
theorem markdownToAdf_deterministic (m1 m2 : String) (h : m1 = m2) :
    markdownToAdf m1 = markdownToAdf m2 := by rw [h]

/-- Witness for C8: two identical calls agree. -/
theorem markdownToAdf_deterministic_witness :
    markdownToAdf "# H" = markdownToAdf "# H" :=
  markdownToAdf_deterministic "# H" "# H" rfl

/-- C9: `withTempJson` writes the JSON-serialized data to the temp path,
the temp file is gone from the final state whether `fn` resolves or
rejects, and the caller receives exactly the outcome of `fn` — the value on
resolution, the same error on rejection. -/
theorem withTempJson_cleanup_and_result {ε α : Type} (now : Nat) (data : Json)
    (fn : String → FsState → FsState × Except ε α) (fs : FsState) :
    fsLookup (fsWrite fs (acliTmpPath now) (jsonStringify data)) (acliTmpPath now)
        = some (jsonStringify data)
    ∧ fsLookup (withTempJson now data fn fs).1 (acliTmpPath now) = none
    ∧ (withTempJson now data fn fs).2
        = (fn (acliTmpPath now) (fsWrite fs (acliTmpPath now) (jsonStringify data))).2
    ∧ (∀ e : ε,
        (fn (acliTmpPath now) (fsWrite fs (acliTmpPath now) (jsonStringify data))).2
            = Except.error e →
          (withTempJson now data fn fs).2 = Except.error e)
    ∧ (∀ v : α,
        (fn (acliTmpPath now) (fsWrite fs (acliTmpPath now) (jsonStringify data))).2
            = Except.ok v →
          (withTempJson now data fn fs).2 = Except.ok v) :=
  ⟨fsLookup_write fs _ _, fsLookup_remove _ _, rfl, fun _ he => he, fun _ hv => hv⟩

/-- Witness for C9 with a resolving function. -/
theorem withTempJson_cleanup_and_result_witness :
    fsLookup (withTempJson 7 Json.null constOkFn []).1 (acliTmpPath 7) = none
    ∧ (withTempJson 7 Json.null constOkFn []).2 = Except.ok 42 :=
  ⟨(withTempJson_cleanup_and_result 7 Json.null constOkFn []).2.1,
   ((withTempJson_cleanup_and_result 7 Json.null constOkFn []).2.2.1).trans rfl⟩

/-- C10 counterexample: with `customFields` provided but empty and only
`descriptionMarkdown` given, the payload contains `additionalAttributes`
although the option is empty, and contains `description` although the
`description` option was not provided — so an optional field can be
present without its option being provided and non-empty. -/
theorem editPayload_presence_counterexample :
    hasField (editPayload editOptionsCx) "additionalAttributes" = true
    ∧ editOptionsCx.customFields = some []
    ∧ hasField (editPayload editOptionsCx) "description" = true
    ∧ editOptionsCx.description = none :=
  ⟨rfl, rfl, rfl, rfl⟩

/-- C10 (amended): the `issues` field is `[key]` for a single key and the
given array unchanged for an array; `summary`, `assignee`, `type` are
present iff provided and non-empty; the label arrays iff provided and
non-empty; `description` iff `descriptionMarkdown` or `description` is
provided and non-empty; and `additionalAttributes` iff `customFields` is
provided, including when it is empty. -/
theorem editPayload_field_presence (o : WorkitemEditOptions) :
    lookupField (editPayload o) "issues" = some (Json.arr ((issuesOf o.key).map Json.str))
    ∧ (∀ s : String, issuesOf (Sum.inl s) = [s])
    ∧ (∀ l : List String, issuesOf (Sum.inr l) = l)
    ∧ hasField (editPayload o) "summary" = truthyStr o.summary
    ∧ hasField (editPayload o) "description"
        = (truthyStr o.descriptionMarkdown || truthyStr o.description)
    ∧ hasField (editPayload o) "assignee" = truthyStr o.assignee
    ∧ hasField (editPayload o) "labelsToAdd" = truthyLen o.labelsToAdd
    ∧ hasField (editPayload o) "labelsToRemove" = truthyLen o.labelsToRemove
    ∧ hasField (editPayload o) "type" = truthyStr o.type
    ∧ hasField (editPayload o) "additionalAttributes" = o.customFields.isSome :=
  ⟨editPayload_issues o, fun _ => rfl, fun _ => rfl, editPayload_summary o,
   editPayload_description o, editPayload_assignee o, editPayload_labelsToAdd o,
   editPayload_labelsToRemove o, editPayload_type o, editPayload_additionalAttributes o⟩

/-- Witness for the amended statement of C10 at concrete options. -/
theorem editPayload_field_presence_witness :
    hasField (editPayload { key := Sum.inl "K" }) "summary"
      = truthyStr ({ key := Sum.inl "K" : WorkitemEditOptions }).summary :=
  (editPayload_field_presence { key := Sum.inl "K" }).2.2.2.1
